import Mathlib

/-!
# Verification of `.github/scripts/merge_tool_versions.py`

A shallow embedding of the merge-tool-versions script.  Strings are modelled
as `List Char`; a file is a list of lines (Python's file iteration yields each
line with its trailing `'\n'`, and the regex anchor `$` matches just before
that trailing newline, so matching the line with the newline stripped against
an end-anchored pattern is equivalent — lines themselves contain no `'\n'`).

The script's single regular expression
`^\|\s*(.*?)\s*\|\s*(.*?)\s*\|$` (applied with `re.match`) is embedded as a
backtracking matcher that mirrors the operational semantics of the pattern
piece by piece: greedy `\s*` tries the longest whitespace run first and backs
off on failure, the lazy groups `(.*?)` try the shortest capture first and
grow one (non-newline) character at a time, and `\|`/`$` are literal pipe and
end-of-input.
-/

namespace MergeToolVersions

/-- Python's `\s` (and `str.strip`) whitespace class, restricted to ASCII:
space, tab, newline, carriage return, vertical tab, form feed. -/
def isPySpace (c : Char) : Bool :=
  c = ' ' || c = '\t' || c = '\n' || c = '\r' || c = '\x0b' || c = '\x0c'

/-- Does the remaining input match `\s*\|$`?  (No capture groups inside, and
the pattern is end-anchored, so greediness of `\s*` cannot affect the result:
the input must be a run of whitespace followed by a final `'|'`.) -/
def wsPipeEnd : List Char → Bool
  | [] => false
  | [c] => decide (c = '|')
  | c :: d :: rest => isPySpace c && wsPipeEnd (d :: rest)

/-- Match `(.*?)\s*\|$` against the whole remaining input, returning the lazy
capture: the empty capture is tried first, then the capture grows one
character at a time (`.` does not match `'\n'`). -/
def lazyCapToPipeEnd : List Char → Option (List Char)
  | [] => none
  | c :: rest =>
    if wsPipeEnd (c :: rest) then some []
    else if c = '\n' then none
    else (lazyCapToPipeEnd rest).map (c :: ·)

/-- Match `\s*(.*?)\s*\|$` against the whole remaining input, returning the
capture.  The leading greedy `\s*` consumes as much whitespace as possible
first and backs off one character at a time on failure. -/
def wsGreedyThen : List Char → Option (List Char)
  | [] => none
  | c :: rest =>
    if isPySpace c then
      match wsGreedyThen rest with
      | some r => some r
      | none => lazyCapToPipeEnd (c :: rest)
    else lazyCapToPipeEnd (c :: rest)

/-- Match `\s*\|\s*(.*?)\s*\|$` against the whole remaining input, returning
the second capture.  The greedy `\s*` consumes the whole leading whitespace
run; backing it off cannot help because the following `\|` can never match a
whitespace character. -/
def midWsPipe : List Char → Option (List Char)
  | [] => none
  | c :: rest =>
    if isPySpace c then midWsPipe rest
    else if c = '|' then wsGreedyThen rest
    else none

/-- Match `(.*?)\s*\|\s*(.*?)\s*\|$` against the whole remaining input,
returning both captures; the first group is lazy, so the empty capture is
tried first and grows one non-newline character at a time. -/
def lazyCapMid : List Char → Option (List Char × List Char)
  | [] => none
  | c :: rest =>
    match midWsPipe (c :: rest) with
    | some g2 => some ([], g2)
    | none =>
      if c = '\n' then none
      else (lazyCapMid rest).map (fun p => (c :: p.1, p.2))

/-- Match `\s*(.*?)\s*\|\s*(.*?)\s*\|$` against the whole remaining input.
The leading greedy `\s*` consumes as much whitespace as possible first and
backs off one character at a time on failure. -/
def wsGreedyCap : List Char → Option (List Char × List Char)
  | [] => none
  | c :: rest =>
    if isPySpace c then
      match wsGreedyCap rest with
      | some r => some r
      | none => lazyCapMid (c :: rest)
    else lazyCapMid (c :: rest)

/-- The embedding of `re.match(r"^\|\s*(.*?)\s*\|\s*(.*?)\s*\|$", line)`: the line must start
with a literal `'|'`; the captures of the two lazy groups are returned. -/
def reMatchRow : List Char → Option (List Char × List Char)
  | [] => none
  | c :: rest => if c = '|' then wsGreedyCap rest else none

/-- Python `str.strip()` (ASCII whitespace): drop leading and trailing
whitespace. -/
def pyStrip (l : List Char) : List Char :=
  ((l.dropWhile isPySpace).reverse.dropWhile isPySpace).reverse

/-- The first character, if any, is not whitespace. -/
def headOk (l : List Char) : Bool :=
  match l.head? with
  | none => true
  | some c => !isPySpace c

/-- The last character, if any, is not whitespace. -/
def lastOk (l : List Char) : Bool :=
  match l.getLast? with
  | none => true
  | some c => !isPySpace c

/-- Python `str.lower()` (ASCII letters). -/
def pyLower (l : List Char) : List Char := l.map Char.toLower

/-- The insertion-ordered dictionary `{tool: version}`: an association list
with CPython `dict` assignment semantics (see `dictInsert`). -/
abbrev Dict := List (List Char × List Char)

/-- Assignment `tools[tool] = version`: if the key is already present its value is
replaced in place (keeping its original position in the insertion order),
otherwise the new pair is appended at the end. -/
def dictInsert : Dict → List Char → List Char → Dict
  | [], k, v => [(k, v)]
  | p :: m, k, v => if p.1 = k then (k, v) :: m else p :: dictInsert m k v

/-- The keys of the dictionary, in insertion order (Python `for tool in tools`). -/
def dictKeys (m : Dict) : List (List Char) := m.map Prod.fst

/-- Lookup `tools.get(tool)` as an `Option`. -/
def dictLookup (m : Dict) (k : List Char) : Option (List Char) :=
  (m.find? (fun p => p.1 = k)).map Prod.snd

/-- Lookup with default, `tools.get(tool, default)`. -/
def dictGet (m : Dict) (k d : List Char) : List Char := (dictLookup m k).getD d

/-- The header/separator skip test: `tool.lower() in ["tool", ":---"]`. -/
def skipTool (t : List Char) : Bool :=
  pyLower t = "tool".toList || pyLower t = ":---".toList

/-- Process one line of an input file: if the table-row regex matches, strip
both captures; skip the reserved header/separator first columns; otherwise
assign `tools[tool] = version`.  Non-matching lines leave the mapping
unchanged. -/
def parseLine (m : Dict) (line : List Char) : Dict :=
  match reMatchRow line with
  | none => m
  | some (g1, g2) =>
    let tool := pyStrip g1
    let version := pyStrip g2
    if skipTool tool then m else dictInsert m tool version

/-- The body of `parse_markdown_table` on the lines of an existing file. -/
def parseLines (lines : List (List Char)) : Dict :=
  lines.foldl parseLine []

/-- The (tool, version) pairs contributed by the matching, non-skipped rows of
a file, in file order and with duplicates retained.  This is a specification
helper: `parseLines` folds exactly these pairs into the dictionary. -/
def matchedPairs (lines : List (List Char)) : List (List Char × List Char) :=
  lines.filterMap (fun line =>
    match reMatchRow line with
    | none => none
    | some (g1, g2) =>
      let tool := pyStrip g1
      if skipTool tool then none else some (tool, pyStrip g2))

/-- Fold a list of (tool, version) pairs into a dictionary by repeated
assignment; `parseLines lines = dictInsertAll [] (matchedPairs lines)`. -/
def dictInsertAll (acc : Dict) (ps : List (List Char × List Char)) : Dict :=
  ps.foldl (fun m p => dictInsert m p.1 p.2) acc

/-- Keep the first occurrence of every element, in order of first
appearance. -/
def firstOccur (l : List (List Char)) : List (List Char) :=
  l.foldl (fun ks k => if k ∈ ks then ks else ks ++ [k]) []

/-- The file system: a path either does not exist (`none`) or holds a list of
lines. -/
abbrev FileSys := List Char → Option (List (List Char))

/-- The function `parse_markdown_table(file_path)`: a missing file yields an empty mapping
and prints a warning (returned as the second component, the lines written to
standard output); an existing file is parsed line by line. -/
def parse_markdown_table (fs : FileSys) (path : List Char) :
    Dict × List (List Char) :=
  match fs path with
  | none => ([], ["Warning: ".toList ++ path ++ " not found.".toList])
  | some lines => (parseLines lines, [])

/-- Python truthiness of an optional path argument: `None` and the empty
string are falsy. -/
def truthy : Option (List Char) → Bool
  | none => false
  | some s => !s.isEmpty

/-- One pass of the union loop over one mapping: `for tool in tools: if tool
not in seen: all_tools.append(tool); seen.add(tool)`.  The state is the pair
`(all_tools, seen)`; the `seen` set is modelled as a list queried by
membership. -/
def addTools (acc : List (List Char) × List (List Char)) (m : Dict) :
    List (List Char) × List (List Char) :=
  m.foldl
    (fun acc p => if p.1 ∈ acc.2 then acc else (acc.1 ++ [p.1], p.1 :: acc.2))
    acc

/-- The list `all_tools`: the ordered union of the tool names, iterating the amd64
mapping first, then the arm64 mapping. -/
def allTools (m1 m2 : Dict) : List (List Char) :=
  (addTools (addTools ([], []) m1) m2).1

/-- The row `f"| {tool} | {v_amd64} | {v_arm64} |"` with
`v_* = *_tools.get(tool, "Not found")`. -/
def rowBoth (m1 m2 : Dict) (t : List Char) : List Char :=
  "| ".toList ++ t ++ " | ".toList ++ dictGet m1 t "Not found".toList
    ++ " | ".toList ++ dictGet m2 t "Not found".toList ++ " |".toList

/-- The row `f"| {tool} | {v} |"` with `v = tools.get(tool, "Not found")` (the
single-architecture row). -/
def rowSingle (m : Dict) (t : List Char) : List Char :=
  "| ".toList ++ t ++ " | ".toList ++ dictGet m t "Not found".toList
    ++ " |".toList

/-- The three lines common to every report: title, timestamp, blank line. -/
def headerLines (now : List Char) : List (List Char) :=
  ["# Tool Versions".toList, "Generated on ".toList ++ now, []]

/-- The `content` list when both architectures were provided.  Note the
trailing space in the header line, exactly as in the source. -/
def contentBoth (now : List Char) (m1 m2 : Dict) : List (List Char) :=
  headerLines now
    ++ ["| Tool | amd64 | arm64 | ".toList, "| :--- | :--- | :--- |".toList]
    ++ (allTools m1 m2).map (rowBoth m1 m2)

/-- Modelled from the spec: the `content` list the specification describes
for the two-architecture case, whose header row is exactly
`| Tool | amd64 | arm64 |` (no trailing space).  Used only to compare the
spec's claimed output shape with the implementation's `contentBoth`. -/
def specContentBoth (now : List Char) (m1 m2 : Dict) : List (List Char) :=
  headerLines now
    ++ ["| Tool | amd64 | arm64 |".toList, "| :--- | :--- | :--- |".toList]
    ++ (allTools m1 m2).map (rowBoth m1 m2)

/-- The `content` list when only amd64 was provided. -/
def contentAmd (now : List Char) (m1 m2 : Dict) : List (List Char) :=
  headerLines now
    ++ ["| Tool | amd64 |".toList, "| :--- | :--- |".toList]
    ++ (allTools m1 m2).map (rowSingle m1)

/-- The `content` list when only arm64 was provided. -/
def contentArm (now : List Char) (m1 m2 : Dict) : List (List Char) :=
  headerLines now
    ++ ["| Tool | arm64 |".toList, "| :--- | :--- |".toList]
    ++ (allTools m1 m2).map (rowSingle m2)

/-- The final text `"\n".join(content) + "\n"`. -/
def joinContent (content : List (List Char)) : List Char :=
  (List.intercalate "\n".toList content) ++ "\n".toList

/-- The command-line arguments after `argparse`: each of `--amd64`,
`--arm64`, `--output` is optional. -/
structure Args where
  amd64 : Option (List Char)
  arm64 : Option (List Char)
  output : Option (List Char)

/-- The observable outcome of one run of `main`: process exit code, the lines
printed to standard output (the payload of each `print` call), the lines
printed to standard error, and the file written via `--output` (path and
content), if any. -/
structure RunResult where
  exitCode : Nat
  stdoutLines : List (List Char)
  stderrLines : List (List Char)
  written : Option (List Char × List Char)
  deriving DecidableEq

/-- The function `main()`, with the file system and the formatted `datetime.now()` string
as parameters.  Directory creation for the output path is not modelled; the
write itself is recorded in `written`. -/
def mainRun (fs : FileSys) (now : List Char) (args : Args) : RunResult :=
  if !truthy args.amd64 && !truthy args.arm64 then
    { exitCode := 1
      stdoutLines := []
      stderrLines :=
        ["Error: At least one of --amd64 or --arm64 must be provided.".toList]
      written := none }
  else
    let r1 := if truthy args.amd64 then
        parse_markdown_table fs (args.amd64.getD []) else ([], [])
    let r2 := if truthy args.arm64 then
        parse_markdown_table fs (args.arm64.getD []) else ([], [])
    let content :=
      if truthy args.amd64 && truthy args.arm64 then contentBoth now r1.1 r2.1
      else if truthy args.amd64 then contentAmd now r1.1 r2.1
      else contentArm now r1.1 r2.1
    let unified := joinContent content
    { exitCode := 0
      stdoutLines := r1.2 ++ r2.2 ++ [unified]
      stderrLines := []
      written :=
        if truthy args.output then some (args.output.getD [], unified)
        else none }

/-! ## Dictionary lemmas -/

@[simp] lemma dictKeys_nil : dictKeys [] = [] := rfl

@[simp] lemma dictKeys_cons (p : List Char × List Char) (m : Dict) :
    dictKeys (p :: m) = p.1 :: dictKeys m := rfl

@[simp] lemma dictKeys_append (m m' : Dict) :
    dictKeys (m ++ m') = dictKeys m ++ dictKeys m' := List.map_append _ _ _

lemma dictKeys_insert (m : Dict) (k v : List Char) :
    dictKeys (dictInsert m k v) =
      if k ∈ dictKeys m then dictKeys m else dictKeys m ++ [k] := by
  induction m with
  | nil => simp [dictInsert]
  | cons p m ih =>
    by_cases h : p.1 = k
    · simp [dictInsert, h]
    · simp only [dictInsert, if_neg h, dictKeys_cons]
      rw [ih]
      by_cases hk : k ∈ dictKeys m
      · simp [hk, h, Ne.symm h]
      · simp [hk, h, Ne.symm h]

@[simp] lemma dictLookup_nil (k : List Char) : dictLookup [] k = none := rfl

lemma dictLookup_cons (q : List Char × List Char) (m : Dict) (k : List Char) :
    dictLookup (q :: m) k = if q.1 = k then some q.2 else dictLookup m k := by
  by_cases h : q.1 = k <;> simp [dictLookup, List.find?_cons, h]

lemma dictLookup_insert (m : Dict) (k v k' : List Char) :
    dictLookup (dictInsert m k v) k' =
      if k' = k then some v else dictLookup m k' := by
  induction m with
  | nil =>
    by_cases h : k' = k
    · simp [dictInsert, dictLookup_cons, h]
    · simp [dictInsert, dictLookup_cons, h, Ne.symm h]
  | cons p m ih =>
    by_cases h : p.1 = k
    · subst h
      by_cases h' : k' = p.1
      · simp [dictInsert, dictLookup_cons, h']
      · simp [dictInsert, dictLookup_cons, h', Ne.symm h']
    · simp only [dictInsert, if_neg h, dictLookup_cons]
      by_cases h' : p.1 = k'
      · have : ¬ (k' = k) := fun hh => h (h' ▸ hh)
        simp [h', this]
      · simp [h', ih]

lemma dictInsert_of_not_mem {m : Dict} {k : List Char} (v : List Char)
    (h : k ∉ dictKeys m) : dictInsert m k v = m ++ [(k, v)] := by
  induction m with
  | nil => simp [dictInsert]
  | cons p m ih =>
    simp only [dictKeys_cons, List.mem_cons] at h
    push_neg at h
    simp [dictInsert, Ne.symm h.1, ih h.2]

lemma mem_dictInsert {p : List Char × List Char} {m : Dict} {k v : List Char}
    (h : p ∈ dictInsert m k v) : p = (k, v) ∨ p ∈ m := by
  induction m with
  | nil => simpa [dictInsert] using h
  | cons q m ih =>
    by_cases hq : q.1 = k
    · simp only [dictInsert, if_pos hq, List.mem_cons] at h
      rcases h with h | h
      · exact Or.inl h
      · exact Or.inr (List.mem_cons_of_mem _ h)
    · simp only [dictInsert, if_neg hq, List.mem_cons] at h
      rcases h with h | h
      · exact Or.inr (h ▸ List.mem_cons_self _ _)
      · rcases ih h with h | h
        · exact Or.inl h
        · exact Or.inr (List.mem_cons_of_mem _ h)

lemma dictLookup_isSome (m : Dict) (k : List Char) :
    (dictLookup m k).isSome = true ↔ k ∈ dictKeys m := by
  induction m with
  | nil => simp
  | cons q m ih =>
    rw [dictLookup_cons]
    by_cases h : q.1 = k
    · simp [h]
    · simp [h, ih, Ne.symm h]

lemma dictLookup_of_mem_nodup {m : Dict} {p : List Char × List Char}
    (hm : (dictKeys m).Nodup) (hp : p ∈ m) : dictLookup m p.1 = some p.2 := by
  induction m with
  | nil => simp at hp
  | cons q m ih =>
    rcases List.mem_cons.1 hp with rfl | hp
    · simp [dictLookup_cons]
    · have hq : q.1 ∉ dictKeys m := (List.nodup_cons.1 hm).1
      have hne : q.1 ≠ p.1 := by
        intro h
        exact hq (h ▸ List.mem_map_of_mem Prod.fst hp)
      rw [dictLookup_cons, if_neg hne]
      exact ih (List.nodup_cons.1 hm).2 hp

/-! ## Fold lemmas: `parseLines` versus the matched pairs -/

@[simp] lemma dictInsertAll_nil (acc : Dict) : dictInsertAll acc [] = acc := rfl

@[simp] lemma dictInsertAll_cons (acc : Dict) (p : List Char × List Char)
    (ps : List (List Char × List Char)) :
    dictInsertAll acc (p :: ps) = dictInsertAll (dictInsert acc p.1 p.2) ps := rfl

/-- The function `parseLines` is the fold of repeated dictionary assignment over exactly
the matching, non-skipped rows. -/
lemma foldl_parseLine_eq (lines : List (List Char)) (acc : Dict) :
    lines.foldl parseLine acc = dictInsertAll acc (matchedPairs lines) := by
  induction lines generalizing acc with
  | nil => rfl
  | cons l ls ih =>
    rw [List.foldl_cons]
    show (ls.foldl parseLine (parseLine acc l)) = _
    unfold matchedPairs
    rw [List.filterMap_cons]
    unfold parseLine
    cases h : reMatchRow l with
    | none => simpa [matchedPairs] using ih acc
    | some g =>
      obtain ⟨g1, g2⟩ := g
      by_cases hs : skipTool (pyStrip g1)
      · simpa [hs, matchedPairs] using ih acc
      · simpa [hs, matchedPairs] using ih (dictInsert acc (pyStrip g1) (pyStrip g2))

lemma parseLines_eq (lines : List (List Char)) :
    parseLines lines = dictInsertAll [] (matchedPairs lines) :=
  foldl_parseLine_eq lines []

/-- Keys after folding assignments: the ordered union of the accumulator's
keys and the first occurrences of the assigned keys. -/
lemma dictKeys_dictInsertAll (ps : List (List Char × List Char)) (acc : Dict) :
    dictKeys (dictInsertAll acc ps) =
      (ps.map Prod.fst).foldl
        (fun ks k => if k ∈ ks then ks else ks ++ [k]) (dictKeys acc) := by
  induction ps generalizing acc with
  | nil => rfl
  | cons p ps ih =>
    rw [dictInsertAll_cons, ih, List.map_cons, List.foldl_cons, dictKeys_insert]

lemma nodup_dictKeys_dictInsertAll (ps : List (List Char × List Char))
    {acc : Dict} (h : (dictKeys acc).Nodup) :
    (dictKeys (dictInsertAll acc ps)).Nodup := by
  induction ps generalizing acc with
  | nil => exact h
  | cons p ps ih =>
    rw [dictInsertAll_cons]
    refine ih ?_
    rw [dictKeys_insert]
    by_cases hp : p.1 ∈ dictKeys acc
    · simpa [hp] using h
    · simp [hp, List.Nodup.append, h, List.disjoint_singleton]

lemma nodup_dictKeys_parseLines (lines : List (List Char)) :
    (dictKeys (parseLines lines)).Nodup := by
  rw [parseLines_eq]
  exact nodup_dictKeys_dictInsertAll _ (by simp)

lemma find?_append {α : Type} (f : α → Bool) (l₁ l₂ : List α) :
    (l₁ ++ l₂).find? f =
      match l₁.find? f with
      | some a => some a
      | none => l₂.find? f := by
  induction l₁ with
  | nil => simp
  | cons a l₁ ih =>
    by_cases h : f a <;> simp [List.find?_cons, h, ih]

/-- Lookup after folding assignments: the value of the last assignment to
the key, falling back to the accumulator. -/
lemma dictLookup_dictInsertAll (ps : List (List Char × List Char)) (acc : Dict)
    (k : List Char) :
    dictLookup (dictInsertAll acc ps) k =
      match ps.reverse.find? (fun p => p.1 = k) with
      | some p => some p.2
      | none => dictLookup acc k := by
  induction ps generalizing acc with
  | nil => simp
  | cons p ps ih =>
    rw [dictInsertAll_cons, ih, List.reverse_cons, find?_append]
    cases hf : ps.reverse.find? (fun p => p.1 = k) with
    | some q => simp
    | none =>
      rw [dictLookup_insert]
      by_cases h : p.1 = k
      · simp [List.find?_cons, h]
      · simp [List.find?_cons, h, Ne.symm h]

/-- Folding an association list with pairwise-distinct keys, none of which
occur in the accumulator, appends it unchanged. -/
lemma dictInsertAll_of_nodup (ps : List (List Char × List Char)) (acc : Dict)
    (h : (dictKeys acc ++ ps.map Prod.fst).Nodup) :
    dictInsertAll acc ps = acc ++ ps := by
  induction ps generalizing acc with
  | nil => simp
  | cons p ps ih =>
    have hp : p.1 ∉ dictKeys acc := by
      intro hmem
      exact (List.disjoint_of_nodup_append h) hmem (by simp)
    rw [dictInsertAll_cons, dictInsert_of_not_mem p.2 hp]
    have h' : (dictKeys (acc ++ [(p.1, p.2)]) ++ ps.map Prod.fst).Nodup := by
      simpa using h
    rw [ih _ h']
    simp

lemma mem_dictInsertAll {p : List Char × List Char}
    {ps : List (List Char × List Char)} {acc : Dict}
    (h : p ∈ dictInsertAll acc ps) : p ∈ acc ∨ p ∈ ps := by
  induction ps generalizing acc with
  | nil => exact Or.inl h
  | cons q ps ih =>
    rw [dictInsertAll_cons] at h
    rcases ih h with h' | h'
    · rcases mem_dictInsert h' with h'' | h''
      · exact Or.inr (by simp [h''])
      · exact Or.inl h''
    · exact Or.inr (List.mem_cons_of_mem _ h')

/-! ## Union-order lemmas -/

@[simp] lemma addTools_nil (acc : List (List Char) × List (List Char)) :
    addTools acc [] = acc := rfl

lemma addTools_cons (acc : List (List Char) × List (List Char))
    (p : List Char × List Char) (m : Dict) :
    addTools acc (p :: m) =
      addTools (if p.1 ∈ acc.2 then acc else (acc.1 ++ [p.1], p.1 :: acc.2)) m :=
  rfl

lemma addTools_fst (m : Dict) (acc seen : List (List Char))
    (hm : (dictKeys m).Nodup) :
    (addTools (acc, seen) m).1 =
      acc ++ (dictKeys m).filter (fun k => decide (k ∉ seen)) := by
  induction m generalizing acc seen with
  | nil => simp
  | cons p m ih =>
    have hnd : (dictKeys m).Nodup := (List.nodup_cons.1 hm).2
    have hp : p.1 ∉ dictKeys m := (List.nodup_cons.1 hm).1
    rw [addTools_cons]
    by_cases h : p.1 ∈ seen
    · simp only [if_pos h]
      rw [ih acc seen hnd]
      simp [h]
    · simp only [if_neg h]
      rw [ih (acc ++ [p.1]) (p.1 :: seen) hnd]
      have : (dictKeys m).filter (fun k => decide (k ∉ p.1 :: seen)) =
          (dictKeys m).filter (fun k => decide (k ∉ seen)) := by
        refine List.filter_congr ?_
        intro k hk
        have : k ≠ p.1 := fun hkp => hp (hkp ▸ hk)
        simp [this]
      rw [this]
      simp [h]

lemma addTools_snd_mem (m : Dict) (acc seen : List (List Char))
    (k : List Char) :
    k ∈ (addTools (acc, seen) m).2 ↔ k ∈ seen ∨ k ∈ dictKeys m := by
  induction m generalizing acc seen with
  | nil => simp
  | cons p m ih =>
    rw [addTools_cons]
    by_cases h : p.1 ∈ seen
    · simp only [if_pos h]
      rw [ih acc seen]
      constructor
      · rintro (hs | hm)
        · exact Or.inl hs
        · exact Or.inr (List.mem_cons_of_mem _ hm)
      · rintro (hs | hm)
        · exact Or.inl hs
        · rcases List.mem_cons.1 hm with rfl | hm
          · exact Or.inl h
          · exact Or.inr hm
    · simp only [if_neg h]
      rw [ih (acc ++ [p.1]) (p.1 :: seen)]
      simp only [List.mem_cons, dictKeys_cons]
      tauto

/-- The ordered union: all of the amd64 keys in order, then the arm64 keys
not already present, in order. -/
lemma allTools_eq (m1 m2 : Dict) (h1 : (dictKeys m1).Nodup)
    (h2 : (dictKeys m2).Nodup) :
    allTools m1 m2 =
      dictKeys m1 ++ (dictKeys m2).filter (fun k => decide (k ∉ dictKeys m1)) := by
  unfold allTools
  have hfst : (addTools ([], []) m1).1 = dictKeys m1 := by
    rw [addTools_fst m1 [] [] h1]; simp
  have hsnd : ∀ k, k ∈ (addTools ([], []) m1).2 ↔ k ∈ dictKeys m1 := by
    intro k
    rw [addTools_snd_mem]
    simp
  conv_lhs => rw [← Prod.mk.eta (p := addTools ([], []) m1)]
  rw [addTools_fst m2 _ _ h2, hfst]
  congr 1
  refine List.filter_congr ?_
  intro k _
  exact decide_eq_decide.2 (not_congr (hsnd k))

/-! ## Stripping lemmas -/

lemma mem_of_getLast? {α : Type} {l : List α} {a : α}
    (h : l.getLast? = some a) : a ∈ l := by
  induction l with
  | nil => simp at h
  | cons c l ih =>
    cases l with
    | nil =>
      simp only [List.getLast?_singleton, Option.some.injEq] at h
      simp [h]
    | cons d l' =>
      rw [List.getLast?_cons_cons] at h
      exact List.mem_cons_of_mem _ (ih h)

lemma head?_dropWhile {α : Type} (p : α → Bool) (l : List α) {c : α}
    (h : (l.dropWhile p).head? = some c) : p c = false := by
  induction l with
  | nil => simp at h
  | cons a l ih =>
    rw [List.dropWhile_cons] at h
    by_cases hp : p a
    · exact ih (by simpa [hp] using h)
    · rw [if_neg hp] at h
      simp only [List.head?_cons, Option.some.injEq] at h
      subst h
      simpa using hp

lemma getLast?_dropWhile {α : Type} (p : α → Bool) (l : List α)
    (h : l.dropWhile p ≠ []) : (l.dropWhile p).getLast? = l.getLast? := by
  induction l with
  | nil => simp at h
  | cons a l ih =>
    rw [List.dropWhile_cons]
    by_cases hp : p a
    · rw [if_pos hp]
      rw [List.dropWhile_cons, if_pos hp] at h
      have hl : l ≠ [] := by
        intro hnil
        exact h (by simp [hnil])
      rw [ih h]
      cases l with
      | nil => exact absurd rfl hl
      | cons d l' => rw [List.getLast?_cons_cons]
    · rw [if_neg hp]

lemma headOk_iff (l : List Char) :
    headOk l = true ↔ ∀ c, l.head? = some c → isPySpace c = false := by
  cases l with
  | nil => simp [headOk]
  | cons c l => simp [headOk]

lemma lastOk_iff (l : List Char) :
    lastOk l = true ↔ ∀ c, l.getLast? = some c → isPySpace c = false := by
  unfold lastOk
  cases h : l.getLast? with
  | none => simp [h]
  | some c => simp [h]

lemma headOk_pyStrip (l : List Char) : headOk (pyStrip l) = true := by
  rw [headOk_iff]
  intro c hc
  unfold pyStrip at hc
  rw [List.head?_reverse] at hc
  have hne : (l.dropWhile isPySpace).reverse.dropWhile isPySpace ≠ [] := by
    intro hnil
    rw [hnil] at hc
    simp at hc
  rw [getLast?_dropWhile _ _ hne, List.getLast?_reverse] at hc
  exact head?_dropWhile _ _ hc

lemma lastOk_pyStrip (l : List Char) : lastOk (pyStrip l) = true := by
  rw [lastOk_iff]
  intro c hc
  unfold pyStrip at hc
  rw [List.getLast?_reverse] at hc
  exact head?_dropWhile _ _ hc

lemma mem_pyStrip {x : Char} {l : List Char} (h : x ∈ pyStrip l) : x ∈ l := by
  unfold pyStrip at h
  rw [List.mem_reverse] at h
  have h1 := (List.dropWhile_sublist (l := (l.dropWhile isPySpace).reverse)
    isPySpace).mem h
  rw [List.mem_reverse] at h1
  exact (List.dropWhile_sublist isPySpace).mem h1

lemma dropWhile_eq_self_of_headOk {l : List Char}
    (h : headOk l = true) : l.dropWhile isPySpace = l := by
  cases l with
  | nil => rfl
  | cons c l =>
    have : isPySpace c = false := (headOk_iff _).1 h c rfl
    simp [List.dropWhile_cons, this]

lemma pyStrip_eq_self {l : List Char} (h1 : headOk l = true)
    (h2 : lastOk l = true) : pyStrip l = l := by
  unfold pyStrip
  rw [dropWhile_eq_self_of_headOk h1]
  have hrev : headOk l.reverse = true := by
    rw [headOk_iff]
    intro c hc
    rw [List.head?_reverse] at hc
    exact (lastOk_iff _).1 h2 c hc
  rw [dropWhile_eq_self_of_headOk hrev, List.reverse_reverse]

lemma not_all_pySpace {l : List Char} (h : lastOk l = true) (hne : l ≠ []) :
    l.all isPySpace = false := by
  cases hg : l.getLast? with
  | none =>
    cases l with
    | nil => exact absurd rfl hne
    | cons c l' => simp [List.getLast?_eq_none_iff] at hg
  | some c =>
    have hc : isPySpace c = false := (lastOk_iff _).1 h c hg
    have hm : c ∈ l := mem_of_getLast? hg
    rw [List.all_eq_false]
    exact ⟨c, hm, by simp [hc]⟩

/-! ## Matcher invariants

For any successful match of the table-row pattern the captures contain no
newline (`.` does not match `'\n'`), and — on a newline-free line, which is
what Python's file iteration produces — the first capture contains no
`'|'`. -/

lemma wsPipeEnd_getLast {l : List Char} (h : wsPipeEnd l = true) :
    l.getLast? = some '|' := by
  induction l with
  | nil => simp [wsPipeEnd] at h
  | cons c l ih =>
    cases l with
    | nil =>
      simp only [wsPipeEnd, decide_eq_true_eq] at h
      simp [h]
    | cons d l' =>
      simp only [wsPipeEnd, Bool.and_eq_true] at h
      rw [List.getLast?_cons_cons]
      exact ih h.2

lemma lazyCapToPipeEnd_no_newline {l g : List Char}
    (h : lazyCapToPipeEnd l = some g) : '\n' ∉ g := by
  induction l generalizing g with
  | nil => simp [lazyCapToPipeEnd] at h
  | cons c rest ih =>
    rw [lazyCapToPipeEnd] at h
    by_cases h1 : wsPipeEnd (c :: rest)
    · rw [if_pos h1] at h
      cases h
      simp
    · rw [if_neg h1] at h
      by_cases h2 : c = '\n'
      · rw [if_pos h2] at h
        cases h
      · rw [if_neg h2] at h
        cases hg : lazyCapToPipeEnd rest with
        | none => rw [hg] at h; cases h
        | some g' =>
          rw [hg] at h
          cases h
          simp only [List.mem_cons, not_or]
          exact ⟨fun hh => h2 hh.symm, ih hg⟩

lemma lazyCapToPipeEnd_getLast {l g : List Char}
    (h : lazyCapToPipeEnd l = some g) : l.getLast? = some '|' := by
  induction l generalizing g with
  | nil => simp [lazyCapToPipeEnd] at h
  | cons c rest ih =>
    rw [lazyCapToPipeEnd] at h
    by_cases h1 : wsPipeEnd (c :: rest)
    · exact wsPipeEnd_getLast h1
    · rw [if_neg h1] at h
      by_cases h2 : c = '\n'
      · rw [if_pos h2] at h; cases h
      · rw [if_neg h2] at h
        cases hg : lazyCapToPipeEnd rest with
        | none => rw [hg] at h; cases h
        | some g' =>
          cases rest with
          | nil => simp [lazyCapToPipeEnd] at hg
          | cons d rest' =>
            rw [List.getLast?_cons_cons]
            exact ih hg

lemma lazyCapToPipeEnd_of_getLast {l : List Char} (hnl : '\n' ∉ l)
    (h : l.getLast? = some '|') : ∃ g, lazyCapToPipeEnd l = some g := by
  induction l with
  | nil => simp at h
  | cons c rest ih =>
    by_cases h1 : wsPipeEnd (c :: rest)
    · exact ⟨[], by rw [lazyCapToPipeEnd, if_pos h1]⟩
    · have hc : c ≠ '\n' := fun hh => hnl (by simp [hh])
      cases rest with
      | nil =>
        simp only [List.getLast?_singleton, Option.some.injEq] at h
        exact absurd (by simp [wsPipeEnd, h]) h1
      | cons d rest' =>
        rw [List.getLast?_cons_cons] at h
        have hnl' : '\n' ∉ d :: rest' := fun hh => hnl (List.mem_cons_of_mem _ hh)
        obtain ⟨g, hg⟩ := ih hnl' h
        exact ⟨c :: g, by rw [lazyCapToPipeEnd, if_neg h1, if_neg hc, hg]; rfl⟩

lemma wsGreedyThen_no_newline {l g : List Char}
    (h : wsGreedyThen l = some g) : '\n' ∉ g := by
  induction l generalizing g with
  | nil => simp [wsGreedyThen] at h
  | cons c rest ih =>
    rw [wsGreedyThen] at h
    by_cases h1 : isPySpace c
    · rw [if_pos h1] at h
      cases hg : wsGreedyThen rest with
      | some r => rw [hg] at h; cases h; exact ih hg
      | none => rw [hg] at h; exact lazyCapToPipeEnd_no_newline h
    · rw [if_neg h1] at h
      exact lazyCapToPipeEnd_no_newline h

lemma wsGreedyThen_getLast {l g : List Char}
    (h : wsGreedyThen l = some g) : l.getLast? = some '|' := by
  induction l generalizing g with
  | nil => simp [wsGreedyThen] at h
  | cons c rest ih =>
    rw [wsGreedyThen] at h
    by_cases h1 : isPySpace c
    · rw [if_pos h1] at h
      cases hg : wsGreedyThen rest with
      | some r =>
        cases rest with
        | nil => simp [wsGreedyThen] at hg
        | cons d rest' =>
          rw [List.getLast?_cons_cons]
          exact ih hg
      | none =>
        rw [hg] at h
        exact lazyCapToPipeEnd_getLast h
    · rw [if_neg h1] at h
      exact lazyCapToPipeEnd_getLast h

lemma wsGreedyThen_of_getLast {l : List Char} (hnl : '\n' ∉ l)
    (h : l.getLast? = some '|') : ∃ g, wsGreedyThen l = some g := by
  cases l with
  | nil => simp at h
  | cons c rest =>
    by_cases h1 : isPySpace c
    · cases hg : wsGreedyThen rest with
      | some r => exact ⟨r, by rw [wsGreedyThen, if_pos h1, hg]⟩
      | none =>
        obtain ⟨g, hgg⟩ := lazyCapToPipeEnd_of_getLast hnl h
        exact ⟨g, by rw [wsGreedyThen, if_pos h1, hg, hgg]⟩
    · obtain ⟨g, hgg⟩ := lazyCapToPipeEnd_of_getLast hnl h
      exact ⟨g, by rw [wsGreedyThen, if_neg h1, hgg]⟩

lemma midWsPipe_no_newline {l g : List Char}
    (h : midWsPipe l = some g) : '\n' ∉ g := by
  induction l generalizing g with
  | nil => simp [midWsPipe] at h
  | cons c rest ih =>
    rw [midWsPipe] at h
    by_cases h1 : isPySpace c
    · rw [if_pos h1] at h
      exact ih h
    · rw [if_neg h1] at h
      by_cases h2 : c = '|'
      · rw [if_pos h2] at h
        exact wsGreedyThen_no_newline h
      · rw [if_neg h2] at h; cases h

lemma midWsPipe_getLast {l g : List Char}
    (h : midWsPipe l = some g) : l.getLast? = some '|' := by
  induction l generalizing g with
  | nil => simp [midWsPipe] at h
  | cons c rest ih =>
    rw [midWsPipe] at h
    by_cases h1 : isPySpace c
    · rw [if_pos h1] at h
      cases rest with
      | nil => simp [midWsPipe] at h
      | cons d rest' =>
        rw [List.getLast?_cons_cons]
        exact ih h
    · rw [if_neg h1] at h
      by_cases h2 : c = '|'
      · rw [if_pos h2] at h
        cases rest with
        | nil => simp [wsGreedyThen] at h
        | cons d rest' =>
          rw [List.getLast?_cons_cons]
          exact wsGreedyThen_getLast h
      · rw [if_neg h2] at h; cases h

lemma lazyCapMid_no_newline {l : List Char} {g1 g2 : List Char}
    (h : lazyCapMid l = some (g1, g2)) : '\n' ∉ g1 ∧ '\n' ∉ g2 := by
  induction l generalizing g1 g2 with
  | nil => simp [lazyCapMid] at h
  | cons c rest ih =>
    rw [lazyCapMid] at h
    cases hm : midWsPipe (c :: rest) with
    | some g2' =>
      rw [hm] at h
      cases h
      exact ⟨by simp, midWsPipe_no_newline hm⟩
    | none =>
      rw [hm] at h
      by_cases h2 : c = '\n'
      · rw [if_pos h2] at h; cases h
      · rw [if_neg h2] at h
        cases hg : lazyCapMid rest with
        | none => rw [hg] at h; cases h
        | some p =>
          obtain ⟨a, b⟩ := p
          rw [hg] at h
          cases h
          obtain ⟨ih1, ih2⟩ := ih hg
          refine ⟨?_, ih2⟩
          simp only [List.mem_cons, not_or]
          exact ⟨fun hh => h2 hh.symm, ih1⟩

lemma lazyCapMid_getLast {l : List Char} {g1 g2 : List Char}
    (h : lazyCapMid l = some (g1, g2)) : l.getLast? = some '|' := by
  induction l generalizing g1 g2 with
  | nil => simp [lazyCapMid] at h
  | cons c rest ih =>
    rw [lazyCapMid] at h
    cases hm : midWsPipe (c :: rest) with
    | some g2' => exact midWsPipe_getLast hm
    | none =>
      rw [hm] at h
      by_cases h2 : c = '\n'
      · rw [if_pos h2] at h; cases h
      · rw [if_neg h2] at h
        cases hg : lazyCapMid rest with
        | none => rw [hg] at h; cases h
        | some p =>
          obtain ⟨a, b⟩ := p
          cases rest with
          | nil => simp [lazyCapMid] at hg
          | cons d rest' =>
            rw [List.getLast?_cons_cons]
            exact ih hg

lemma lazyCapMid_no_pipe {l : List Char} {g1 g2 : List Char}
    (hnl : '\n' ∉ l) (h : lazyCapMid l = some (g1, g2)) : '|' ∉ g1 := by
  induction l generalizing g1 g2 with
  | nil => simp [lazyCapMid] at h
  | cons c rest ih =>
    rw [lazyCapMid] at h
    cases hm : midWsPipe (c :: rest) with
    | some g2' =>
      rw [hm] at h
      cases h
      simp
    | none =>
      rw [hm] at h
      by_cases h2 : c = '\n'
      · rw [if_pos h2] at h; cases h
      · rw [if_neg h2] at h
        cases hg : lazyCapMid rest with
        | none => rw [hg] at h; cases h
        | some p =>
          rw [hg] at h
          cases h
          have hnl' : '\n' ∉ rest := fun hh => hnl (List.mem_cons_of_mem _ hh)
          have hcp : c ≠ '|' := by
            intro hc
            subst hc
            have hlast : rest.getLast? = some '|' :=
              lazyCapMid_getLast
                (show lazyCapMid rest = some (p.1, p.2) by rw [hg])
            obtain ⟨g, hgt⟩ := wsGreedyThen_of_getLast hnl' hlast
            have : midWsPipe ('|' :: rest) = some g := by
              rw [midWsPipe]
              simp only [isPySpace, decide_eq_true_eq]
              norm_num
              exact hgt
            rw [this] at hm
            cases hm
          simp only [List.mem_cons, not_or]
          exact ⟨fun hh => hcp hh.symm,
            ih hnl' (show lazyCapMid rest = some (p.1, p.2) by rw [hg])⟩

lemma wsGreedyCap_no_newline {l : List Char} {g1 g2 : List Char}
    (h : wsGreedyCap l = some (g1, g2)) : '\n' ∉ g1 ∧ '\n' ∉ g2 := by
  induction l generalizing g1 g2 with
  | nil => simp [wsGreedyCap] at h
  | cons c rest ih =>
    rw [wsGreedyCap] at h
    by_cases h1 : isPySpace c
    · rw [if_pos h1] at h
      cases hg : wsGreedyCap rest with
      | some r => rw [hg] at h; cases h; exact ih hg
      | none => rw [hg] at h; exact lazyCapMid_no_newline h
    · rw [if_neg h1] at h
      exact lazyCapMid_no_newline h

lemma wsGreedyCap_no_pipe {l : List Char} {g1 g2 : List Char}
    (hnl : '\n' ∉ l) (h : wsGreedyCap l = some (g1, g2)) : '|' ∉ g1 := by
  induction l generalizing g1 g2 with
  | nil => simp [wsGreedyCap] at h
  | cons c rest ih =>
    rw [wsGreedyCap] at h
    have hnl' : '\n' ∉ rest := fun hh => hnl (List.mem_cons_of_mem _ hh)
    by_cases h1 : isPySpace c
    · rw [if_pos h1] at h
      cases hg : wsGreedyCap rest with
      | some r => rw [hg] at h; cases h; exact ih hnl' hg
      | none => rw [hg] at h; exact lazyCapMid_no_pipe hnl h
    · rw [if_neg h1] at h
      exact lazyCapMid_no_pipe hnl h

lemma reMatchRow_no_newline {line : List Char} {g1 g2 : List Char}
    (h : reMatchRow line = some (g1, g2)) : '\n' ∉ g1 ∧ '\n' ∉ g2 := by
  cases line with
  | nil => simp [reMatchRow] at h
  | cons c rest =>
    rw [reMatchRow] at h
    by_cases h1 : c = '|'
    · rw [if_pos h1] at h
      exact wsGreedyCap_no_newline h
    · rw [if_neg h1] at h; cases h

lemma reMatchRow_no_pipe {line : List Char} {g1 g2 : List Char}
    (hnl : '\n' ∉ line) (h : reMatchRow line = some (g1, g2)) : '|' ∉ g1 := by
  cases line with
  | nil => simp [reMatchRow] at h
  | cons c rest =>
    rw [reMatchRow] at h
    by_cases h1 : c = '|'
    · rw [if_pos h1] at h
      exact wsGreedyCap_no_pipe (fun hh => hnl (List.mem_cons_of_mem _ hh)) h
    · rw [if_neg h1] at h; cases h

/-! ## Matching the rows the formatter produces

A row `"| " ++ t ++ " | " ++ v ++ " |"` built from a stripped, pipe-free,
newline-free tool name `t` and a stripped, newline-free version `v` matches
the table-row pattern with captures exactly `t` and `v`. -/

lemma lastOk_tail {c : Char} {v : List Char} (h : lastOk (c :: v) = true) :
    lastOk v = true := by
  cases v with
  | nil => rfl
  | cons d t =>
    rw [lastOk_iff] at h ⊢
    intro x hx
    exact h x (by rwa [List.getLast?_cons_cons])

lemma wsPipeEnd_append_pipe (w : List Char) :
    wsPipeEnd (w ++ ['|']) = w.all isPySpace := by
  induction w with
  | nil => simp [wsPipeEnd]
  | cons c w' ih =>
    cases w' with
    | nil => simp [wsPipeEnd]
    | cons d w'' =>
      show wsPipeEnd (c :: d :: (w'' ++ ['|'])) = _
      rw [wsPipeEnd]
      rw [show d :: (w'' ++ ['|']) = (d :: w'') ++ ['|'] from rfl, ih]
      simp

lemma lazyCapToPipeEnd_template {v : List Char} (hnl : '\n' ∉ v)
    (hlast : lastOk v = true) :
    lazyCapToPipeEnd (v ++ [' ', '|']) = some v := by
  induction v with
  | nil => rfl
  | cons c v' ih =>
    have hwe : wsPipeEnd ((c :: v') ++ [' ', '|']) = false := by
      rw [show (c :: v') ++ [' ', '|'] = ((c :: v') ++ [' ']) ++ ['|'] by simp,
        wsPipeEnd_append_pipe]
      rw [List.all_append]
      rw [not_all_pySpace hlast (by simp)]
      rfl
    have hc : c ≠ '\n' := fun hh => hnl (by simp [hh])
    rw [show (c :: v') ++ [' ', '|'] = c :: (v' ++ [' ', '|']) from rfl,
      lazyCapToPipeEnd]
    rw [show c :: (v' ++ [' ', '|']) = (c :: v') ++ [' ', '|'] from rfl, hwe]
    rw [if_neg (by simp), if_neg hc,
      ih (fun hh => hnl (List.mem_cons_of_mem _ hh)) (lastOk_tail hlast)]
    rfl

lemma wsGreedyThen_template {v : List Char} (hnl : '\n' ∉ v)
    (hhead : headOk v = true) (hlast : lastOk v = true) :
    wsGreedyThen (v ++ [' ', '|']) = some v := by
  cases v with
  | nil => rfl
  | cons c v' =>
    have hc : isPySpace c = false := (headOk_iff _).1 hhead c rfl
    rw [show (c :: v') ++ [' ', '|'] = c :: (v' ++ [' ', '|']) from rfl,
      wsGreedyThen, if_neg (by simp [hc])]
    exact lazyCapToPipeEnd_template hnl hlast

lemma wsGreedyThen_space_template {v : List Char} (hnl : '\n' ∉ v)
    (hhead : headOk v = true) (hlast : lastOk v = true) :
    wsGreedyThen (' ' :: (v ++ [' ', '|'])) = some v := by
  rw [wsGreedyThen, if_pos (by simp [isPySpace]),
    wsGreedyThen_template hnl hhead hlast]

lemma midWsPipe_template {v : List Char} (hnl : '\n' ∉ v)
    (hhead : headOk v = true) (hlast : lastOk v = true) :
    midWsPipe ('|' :: ' ' :: (v ++ [' ', '|'])) = some v := by
  rw [midWsPipe, if_neg (by simp [isPySpace]), if_pos rfl]
  exact wsGreedyThen_space_template hnl hhead hlast

lemma midWsPipe_none_of_nonpipe {t : List Char} (rest : List Char)
    (h1 : t.dropWhile isPySpace ≠ []) (h2 : '|' ∉ t) :
    midWsPipe (t ++ rest) = none := by
  induction t with
  | nil => exact absurd rfl h1
  | cons c t' ih =>
    by_cases hc : isPySpace c
    · rw [show (c :: t') ++ rest = c :: (t' ++ rest) from rfl, midWsPipe,
        if_pos hc]
      rw [List.dropWhile_cons, if_pos hc] at h1
      exact ih h1 (fun hh => h2 (List.mem_cons_of_mem _ hh))
    · rw [show (c :: t') ++ rest = c :: (t' ++ rest) from rfl, midWsPipe,
        if_neg hc, if_neg (fun hh => h2 (by simp [hh]))]

lemma lazyCapMid_template {t v : List Char}
    (htn : '\n' ∉ t) (htp : '|' ∉ t) (htl : lastOk t = true)
    (hvn : '\n' ∉ v) (hvh : headOk v = true) (hvl : lastOk v = true) :
    lazyCapMid (t ++ (' ' :: '|' :: ' ' :: (v ++ [' ', '|']))) =
      some (t, v) := by
  induction t with
  | nil =>
    rw [List.nil_append, lazyCapMid]
    rw [show midWsPipe (' ' :: '|' :: ' ' :: (v ++ [' ', '|'])) =
        midWsPipe ('|' :: ' ' :: (v ++ [' ', '|'])) by
      rw [midWsPipe, if_pos (by simp [isPySpace])]]
    rw [midWsPipe_template hvn hvh hvl]
  | cons c t' ih =>
    have hne : (c :: t').dropWhile isPySpace ≠ [] := by
      rw [Ne, List.dropWhile_eq_nil_iff]
      intro hall
      have := not_all_pySpace htl (l := c :: t') (by simp)
      rw [List.all_eq_false] at this
      obtain ⟨x, hx, hxw⟩ := this
      have hx' := hall x hx
      simp only [hx'] at hxw
      exact hxw trivial
    have hmid : midWsPipe ((c :: t') ++ (' ' :: '|' :: ' ' :: (v ++ [' ', '|'])))
        = none := midWsPipe_none_of_nonpipe _ hne htp
    have hc : c ≠ '\n' := fun hh => htn (by simp [hh])
    rw [show (c :: t') ++ (' ' :: '|' :: ' ' :: (v ++ [' ', '|'])) =
        c :: (t' ++ (' ' :: '|' :: ' ' :: (v ++ [' ', '|']))) from rfl] at hmid ⊢
    rw [lazyCapMid, hmid, if_neg hc,
      ih (fun hh => htn (List.mem_cons_of_mem _ hh))
        (fun hh => htp (List.mem_cons_of_mem _ hh)) (lastOk_tail htl)]
    rfl

lemma wsGreedyCap_template {t v : List Char}
    (htn : '\n' ∉ t) (htp : '|' ∉ t) (hth : headOk t = true)
    (htl : lastOk t = true)
    (hvn : '\n' ∉ v) (hvh : headOk v = true) (hvl : lastOk v = true) :
    wsGreedyCap (t ++ (' ' :: '|' :: ' ' :: (v ++ [' ', '|']))) =
      some (t, v) := by
  cases t with
  | nil =>
    rw [List.nil_append, wsGreedyCap, if_pos (by simp [isPySpace])]
    rw [show wsGreedyCap ('|' :: ' ' :: (v ++ [' ', '|'])) =
        lazyCapMid ('|' :: ' ' :: (v ++ [' ', '|'])) by
      rw [wsGreedyCap, if_neg (by simp [isPySpace])]]
    rw [show lazyCapMid ('|' :: ' ' :: (v ++ [' ', '|'])) = some ([], v) by
      rw [lazyCapMid, midWsPipe_template hvn hvh hvl]]
  | cons c t' =>
    have hc : isPySpace c = false := (headOk_iff _).1 hth c rfl
    rw [show (c :: t') ++ (' ' :: '|' :: ' ' :: (v ++ [' ', '|'])) =
        c :: (t' ++ (' ' :: '|' :: ' ' :: (v ++ [' ', '|']))) from rfl,
      wsGreedyCap, if_neg (by simp [hc])]
    exact lazyCapMid_template htn htp htl hvn hvh hvl

/-- The key construction lemma: the formatter's row template matches the
parser's row pattern, recovering the tool and version exactly. -/
lemma reMatchRow_template {t v : List Char}
    (htn : '\n' ∉ t) (htp : '|' ∉ t) (hth : headOk t = true)
    (htl : lastOk t = true)
    (hvn : '\n' ∉ v) (hvh : headOk v = true) (hvl : lastOk v = true) :
    reMatchRow ("| ".toList ++ t ++ " | ".toList ++ v ++ " |".toList) =
      some (t, v) := by
  have hshape : "| ".toList ++ t ++ " | ".toList ++ v ++ " |".toList =
      '|' :: (' ' :: (t ++ (' ' :: '|' :: ' ' :: (v ++ [' ', '|'])))) := by
    show ['|', ' '] ++ t ++ [' ', '|', ' '] ++ v ++ [' ', '|'] = _
    simp
  rw [hshape, reMatchRow, if_pos rfl, wsGreedyCap, if_pos (by simp [isPySpace])]
  rw [wsGreedyCap_template htn htp hth htl hvn hvh hvl]

/-! ## Invariants of parsed mappings -/

/-- Membership in `matchedPairs`, unfolded. -/
lemma mem_matchedPairs {lines : List (List Char)} {p : List Char × List Char}
    (hp : p ∈ matchedPairs lines) :
    ∃ line ∈ lines, ∃ g1 g2, reMatchRow line = some (g1, g2) ∧
      skipTool (pyStrip g1) = false ∧ p = (pyStrip g1, pyStrip g2) := by
  unfold matchedPairs at hp
  rw [List.mem_filterMap] at hp
  obtain ⟨line, hline, hres⟩ := hp
  refine ⟨line, hline, ?_⟩
  cases hm : reMatchRow line with
  | none => rw [hm] at hres; cases hres
  | some g =>
    obtain ⟨g1, g2⟩ := g
    rw [hm] at hres
    by_cases hs : skipTool (pyStrip g1)
    · simp only [hs, if_true] at hres
      cases hres
    · simp only [hs] at hres
      simp only [Bool.false_eq_true, if_false, Option.some.injEq] at hres
      exact ⟨g1, g2, rfl, by simp [hs], hres.symm⟩

/-- Every pair stored by the parser is stripped on both sides, and free of
newlines; the tool name additionally contains no pipe (the input lines are
newline-free, as lines of a file are). -/
lemma parseLines_pair_props {lines : List (List Char)}
    (hnl : ∀ l ∈ lines, '\n' ∉ l) {p : List Char × List Char}
    (hp : p ∈ parseLines lines) :
    headOk p.1 = true ∧ lastOk p.1 = true ∧ '|' ∉ p.1 ∧ '\n' ∉ p.1 ∧
      headOk p.2 = true ∧ lastOk p.2 = true ∧ '\n' ∉ p.2 := by
  rw [parseLines_eq] at hp
  rcases mem_dictInsertAll hp with h | h
  · simp at h
  · obtain ⟨line, hline, g1, g2, hmatch, _, rfl⟩ := mem_matchedPairs h
    obtain ⟨hg1n, hg2n⟩ := reMatchRow_no_newline hmatch
    have hg1p : '|' ∉ g1 := reMatchRow_no_pipe (hnl line hline) hmatch
    exact ⟨headOk_pyStrip g1, lastOk_pyStrip g1,
      fun hh => hg1p (mem_pyStrip hh), fun hh => hg1n (mem_pyStrip hh),
      headOk_pyStrip g2, lastOk_pyStrip g2, fun hh => hg2n (mem_pyStrip hh)⟩

/-- No key of a parsed mapping is one of the reserved header/separator
markers. -/
lemma parseLines_key_not_skip {lines : List (List Char)} {k : List Char}
    (hk : k ∈ dictKeys (parseLines lines)) : skipTool k = false := by
  unfold dictKeys at hk
  rw [List.mem_map] at hk
  obtain ⟨p, hp, rfl⟩ := hk
  rw [parseLines_eq] at hp
  rcases mem_dictInsertAll hp with h | h
  · simp at h
  · obtain ⟨line, _, g1, g2, _, hskip, rfl⟩ := mem_matchedPairs h
    exact hskip

/-- A line the row pattern does not match leaves the mapping unchanged. -/
lemma parseLine_nomatch (m : Dict) {line : List Char}
    (h : reMatchRow line = none) : parseLine m line = m := by
  simp [parseLine, h]

/-- A matching line whose stripped first column is a reserved marker leaves
the mapping unchanged. -/
lemma parseLine_skipline (m : Dict) (g1 g2 : List Char) {line : List Char}
    (h : reMatchRow line = some (g1, g2))
    (hs : skipTool (pyStrip g1) = true) : parseLine m line = m := by
  simp [parseLine, h, hs]

/-- Parsing a formatter-produced row assigns exactly `(t, v)`. -/
lemma parseLine_template (m : Dict) {t v : List Char}
    (htn : '\n' ∉ t) (htp : '|' ∉ t) (hth : headOk t = true)
    (htl : lastOk t = true)
    (hvn : '\n' ∉ v) (hvh : headOk v = true) (hvl : lastOk v = true)
    (hskip : skipTool t = false) :
    parseLine m ("| ".toList ++ t ++ " | ".toList ++ v ++ " |".toList) =
      dictInsert m t v := by
  unfold parseLine
  rw [reMatchRow_template htn htp hth htl hvn hvh hvl]
  show (if skipTool (pyStrip t) = true then m
    else dictInsert m (pyStrip t) (pyStrip v)) = dictInsert m t v
  rw [pyStrip_eq_self hth htl, pyStrip_eq_self hvh hvl]
  simp [hskip]

/-! ## Round trip: parsing a formatted report -/

lemma parseLine_title (m : Dict) : parseLine m "# Tool Versions".toList = m :=
  parseLine_nomatch m (by decide)

lemma parseLine_empty (m : Dict) : parseLine m [] = m :=
  parseLine_nomatch m rfl

lemma parseLine_generated (m : Dict) (now : List Char) :
    parseLine m ("Generated on ".toList ++ now) = m := by
  refine parseLine_nomatch m ?_
  show reMatchRow ('G' :: ("enerated on ".toList ++ now)) = none
  rw [reMatchRow, if_neg (by decide)]

lemma parseLine_hdrAmd (m : Dict) : parseLine m "| Tool | amd64 |".toList = m :=
  parseLine_skipline m "Tool".toList "amd64".toList (by decide) (by decide)

lemma parseLine_hdrArm (m : Dict) : parseLine m "| Tool | arm64 |".toList = m :=
  parseLine_skipline m "Tool".toList "arm64".toList (by decide) (by decide)

lemma parseLine_sep2 (m : Dict) : parseLine m "| :--- | :--- |".toList = m :=
  parseLine_skipline m ":---".toList ":---".toList (by decide) (by decide)

/-- Folding the parser over formatter-produced rows replays the
assignments. -/
lemma foldl_parseLine_rows (ps : List (List Char × List Char)) (acc : Dict)
    (hprops : ∀ p ∈ ps, headOk p.1 = true ∧ lastOk p.1 = true ∧ '|' ∉ p.1 ∧
      '\n' ∉ p.1 ∧ headOk p.2 = true ∧ lastOk p.2 = true ∧ '\n' ∉ p.2)
    (hskip : ∀ p ∈ ps, skipTool p.1 = false) :
    List.foldl parseLine acc
      (ps.map (fun p =>
        "| ".toList ++ p.1 ++ " | ".toList ++ p.2 ++ " |".toList)) =
      dictInsertAll acc ps := by
  induction ps generalizing acc with
  | nil => rfl
  | cons p ps ih =>
    rw [List.map_cons, List.foldl_cons]
    obtain ⟨h1, h2, h3, h4, h5, h6, h7⟩ := hprops p (by simp)
    rw [parseLine_template acc h4 h3 h1 h2 h7 h5 h6 (hskip p (by simp))]
    exact ih _ (fun q hq => hprops q (by simp [hq]))
      (fun q hq => hskip q (by simp [hq]))

/-- Re-parsing the data rows of a single-architecture report rebuilds exactly
the mapping they were formatted from. -/
lemma foldl_parseLine_rowSingle (m : Dict) (hnd : (dictKeys m).Nodup)
    (hprops : ∀ p ∈ m, headOk p.1 = true ∧ lastOk p.1 = true ∧ '|' ∉ p.1 ∧
      '\n' ∉ p.1 ∧ headOk p.2 = true ∧ lastOk p.2 = true ∧ '\n' ∉ p.2)
    (hskip : ∀ p ∈ m, skipTool p.1 = false) :
    List.foldl parseLine [] ((dictKeys m).map (rowSingle m)) = m := by
  have hmap : (dictKeys m).map (rowSingle m) =
      m.map (fun p =>
        "| ".toList ++ p.1 ++ " | ".toList ++ p.2 ++ " |".toList) := by
    unfold dictKeys
    rw [List.map_map]
    refine List.map_congr_left ?_
    intro p hp
    show rowSingle m p.1 = _
    unfold rowSingle
    rw [show dictGet m p.1 "Not found".toList = p.2 by
      unfold dictGet
      rw [dictLookup_of_mem_nodup hnd hp]
      rfl]
  rw [hmap, foldl_parseLine_rows m [] hprops hskip,
    dictInsertAll_of_nodup m [] (by simpa using hnd)]
  simp

/-- Re-parsing the amd64-only report rebuilds exactly the mapping. -/
lemma parseLines_contentAmd (now : List Char) (m : Dict)
    (hnd : (dictKeys m).Nodup)
    (hprops : ∀ p ∈ m, headOk p.1 = true ∧ lastOk p.1 = true ∧ '|' ∉ p.1 ∧
      '\n' ∉ p.1 ∧ headOk p.2 = true ∧ lastOk p.2 = true ∧ '\n' ∉ p.2)
    (hskip : ∀ p ∈ m, skipTool p.1 = false) :
    parseLines (contentAmd now m []) = m := by
  have hall : allTools m [] = dictKeys m := by
    rw [allTools_eq m [] hnd (by simp)]
    simp
  unfold contentAmd parseLines
  rw [hall]
  rw [show headerLines now
      ++ ["| Tool | amd64 |".toList, "| :--- | :--- |".toList]
      ++ (dictKeys m).map (rowSingle m) =
      (headerLines now
        ++ ["| Tool | amd64 |".toList, "| :--- | :--- |".toList])
        ++ (dictKeys m).map (rowSingle m) by simp]
  rw [List.foldl_append]
  rw [show List.foldl parseLine []
      (headerLines now
        ++ ["| Tool | amd64 |".toList, "| :--- | :--- |".toList]) =
      List.foldl parseLine [] ["# Tool Versions".toList,
        "Generated on ".toList ++ now, [], "| Tool | amd64 |".toList,
        "| :--- | :--- |".toList] from rfl]
  simp only [List.foldl_cons, List.foldl_nil]
  rw [parseLine_title, parseLine_generated, parseLine_empty, parseLine_hdrAmd,
    parseLine_sep2]
  exact foldl_parseLine_rowSingle m hnd hprops hskip

/-- Re-parsing the arm64-only report rebuilds exactly the mapping. -/
lemma parseLines_contentArm (now : List Char) (m : Dict)
    (hnd : (dictKeys m).Nodup)
    (hprops : ∀ p ∈ m, headOk p.1 = true ∧ lastOk p.1 = true ∧ '|' ∉ p.1 ∧
      '\n' ∉ p.1 ∧ headOk p.2 = true ∧ lastOk p.2 = true ∧ '\n' ∉ p.2)
    (hskip : ∀ p ∈ m, skipTool p.1 = false) :
    parseLines (contentArm now [] m) = m := by
  have hall : allTools [] m = dictKeys m := by
    rw [allTools_eq [] m (by simp) hnd]
    have : (dictKeys m).filter (fun k => decide (k ∉ dictKeys ([] : Dict))) =
        dictKeys m := by
      refine List.filter_eq_self.2 ?_
      intro k _
      simp
    simp [this]
  unfold contentArm parseLines
  rw [hall]
  rw [show headerLines now
      ++ ["| Tool | arm64 |".toList, "| :--- | :--- |".toList]
      ++ (dictKeys m).map (rowSingle m) =
      (headerLines now
        ++ ["| Tool | arm64 |".toList, "| :--- | :--- |".toList])
        ++ (dictKeys m).map (rowSingle m) by simp]
  rw [List.foldl_append]
  rw [show List.foldl parseLine []
      (headerLines now
        ++ ["| Tool | arm64 |".toList, "| :--- | :--- |".toList]) =
      List.foldl parseLine [] ["# Tool Versions".toList,
        "Generated on ".toList ++ now, [], "| Tool | arm64 |".toList,
        "| :--- | :--- |".toList] from rfl]
  simp only [List.foldl_cons, List.foldl_nil]
  rw [parseLine_title, parseLine_generated, parseLine_empty, parseLine_hdrArm,
    parseLine_sep2]
  exact foldl_parseLine_rowSingle m hnd hprops hskip

/-! ## Joining the content lines -/

lemma joinContent_cons_cons (a b : List Char) (ls : List (List Char)) :
    joinContent (a :: b :: ls) = a ++ '\n' :: joinContent (b :: ls) := by
  unfold joinContent
  simp [List.intercalate, List.intersperse]

lemma joinContent_single (a : List Char) : joinContent [a] = a ++ ['\n'] := by
  unfold joinContent
  simp [List.intercalate, List.intersperse]

lemma joinContent_rows (sep : List Char) (rows : List (List Char)) :
    joinContent (sep :: rows) =
      sep ++ '\n' :: (rows.map (· ++ ['\n'])).flatten := by
  induction rows generalizing sep with
  | nil => simp [joinContent_single]
  | cons r rows ih =>
    rw [joinContent_cons_cons, ih r]
    simp

lemma truthy_some_of_ne {p : List Char} (h : p ≠ []) :
    truthy (some p) = true := by
  cases p with
  | nil => exact absurd rfl h
  | cons c t => rfl

lemma mem_addTools_fst {k : List Char} {m : Dict}
    {acc seen : List (List Char)}
    (h : k ∈ (addTools (acc, seen) m).1) : k ∈ acc ∨ k ∈ dictKeys m := by
  induction m generalizing acc seen with
  | nil => exact Or.inl h
  | cons p m ih =>
    rw [addTools_cons] at h
    by_cases hp : p.1 ∈ seen
    · rw [if_pos hp] at h
      rcases ih h with h' | h'
      · exact Or.inl h'
      · exact Or.inr (List.mem_cons_of_mem _ h')
    · rw [if_neg hp] at h
      rcases ih h with h' | h'
      · rcases List.mem_append.1 h' with h'' | h''
        · exact Or.inl h''
        · simp only [List.mem_singleton] at h''
          exact Or.inr (by simp [h''])
      · exact Or.inr (List.mem_cons_of_mem _ h')

lemma mem_allTools_single {t : List Char} {m : Dict}
    (h : t ∈ allTools m []) : t ∈ dictKeys m := by
  unfold allTools at h
  rw [addTools_nil] at h
  rcases mem_addTools_fst h with h' | h'
  · simp at h'
  · exact h'

/-! ## The claims -/

/-- C1: For every pair of supplied reports, the tool name ordering in the
merged output (the order `all_tools` is emitted in, hence the order of the
data rows) equals all tool names of the amd64 report in their original
insertion order, followed by the tool names that appear only in the arm64
report, in their original order within that report (first-seen-wins
union). -/
theorem claim1_union_order (f1 f2 : List (List Char)) :
    allTools (parseLines f1) (parseLines f2) =
      dictKeys (parseLines f1) ++
        (dictKeys (parseLines f2)).filter
          (fun k => decide (k ∉ dictKeys (parseLines f1))) :=
  allTools_eq _ _ (nodup_dictKeys_parseLines f1) (nodup_dictKeys_parseLines f2)

/-- C2: For every tool in the union list, when both architectures are
supplied, the tool's row appears in the report, and each architecture's cell
in that row is the version from that architecture's mapping if the tool is
present there, and exactly the literal string `Not found` if it is
absent. -/
theorem claim2_not_found_cells (m1 m2 : Dict) (t : List Char)
    (ht : t ∈ allTools m1 m2) (now : List Char) :
    rowBoth m1 m2 t ∈ contentBoth now m1 m2 ∧
    (∀ v, dictLookup m1 t = some v →
      rowBoth m1 m2 t = "| ".toList ++ t ++ " | ".toList ++ v ++ " | ".toList
        ++ dictGet m2 t "Not found".toList ++ " |".toList) ∧
    (dictLookup m1 t = none →
      rowBoth m1 m2 t = "| ".toList ++ t ++ " | ".toList
        ++ "Not found".toList ++ " | ".toList
        ++ dictGet m2 t "Not found".toList ++ " |".toList) ∧
    (∀ v, dictLookup m2 t = some v →
      rowBoth m1 m2 t = "| ".toList ++ t ++ " | ".toList
        ++ dictGet m1 t "Not found".toList ++ " | ".toList ++ v
        ++ " |".toList) ∧
    (dictLookup m2 t = none →
      rowBoth m1 m2 t = "| ".toList ++ t ++ " | ".toList
        ++ dictGet m1 t "Not found".toList ++ " | ".toList
        ++ "Not found".toList ++ " |".toList) := by
  refine ⟨?_, ?_, ?_, ?_, ?_⟩
  · unfold contentBoth
    exact List.mem_append.2 (Or.inr (List.mem_map_of_mem _ ht))
  · intro v hv
    unfold rowBoth dictGet
    rw [hv]
    simp
  · intro hv
    unfold rowBoth dictGet
    rw [hv]
    simp
  · intro v hv
    unfold rowBoth dictGet
    rw [hv]
    simp
  · intro hv
    unfold rowBoth dictGet
    rw [hv]
    simp

theorem claim2_not_found_cells_witness :
    rowBoth [("git".toList, "2.40".toList)] [] "git".toList ∈
      contentBoth [] [("git".toList, "2.40".toList)] [] :=
  (claim2_not_found_cells [("git".toList, "2.40".toList)] [] "git".toList
    (by decide) []).1

/-- C5: If neither an amd64 path nor an arm64 path is supplied, the program
reports a usage error to the error stream and exits with code 1 before doing
any work; nothing is printed to standard output and no output file is
created. -/
theorem claim5_usage_error (fs : FileSys) (now : List Char)
    (out : Option (List Char)) :
    mainRun fs now ⟨none, none, out⟩ =
      { exitCode := 1
        stdoutLines := []
        stderrLines :=
          ["Error: At least one of --amd64 or --arm64 must be provided.".toList]
        written := none } := rfl

/-- C7: For every input file, a matching row whose stripped first column,
lowercased, equals `tool` or `:---` is skipped during parsing; no key of a
parsed mapping lowercases to a reserved marker, and in particular the header
row `| Tool | Version |` and the separator row `| :--- | :--- |` leave the
mapping unchanged, so they never appear as data rows in the merged
output. -/
theorem claim7_reserved_rows :
    (∀ (m : Dict) (line g1 g2 : List Char),
      reMatchRow line = some (g1, g2) →
      (pyLower (pyStrip g1) = "tool".toList ∨
        pyLower (pyStrip g1) = ":---".toList) →
      parseLine m line = m) ∧
    (∀ (lines : List (List Char)) (k : List Char),
      k ∈ dictKeys (parseLines lines) →
      pyLower k ≠ "tool".toList ∧ pyLower k ≠ ":---".toList) ∧
    (∀ m : Dict, parseLine m "| Tool | Version |".toList = m) ∧
    (∀ m : Dict, parseLine m "| :--- | :--- |".toList = m) := by
  refine ⟨?_, ?_, ?_, parseLine_sep2⟩
  · intro m line g1 g2 h hres
    refine parseLine_skipline m g1 g2 h ?_
    unfold skipTool
    rcases hres with h' | h' <;> simp [h']
  · intro lines k hk
    have hns := parseLines_key_not_skip hk
    unfold skipTool at hns
    constructor <;> intro h' <;> simp [h'] at hns
  · intro m
    exact parseLine_skipline m "Tool".toList "Version".toList
      (by decide) (by decide)

theorem claim7_reserved_rows_witness :
    parseLine [] "| Tool | Version |".toList = [] :=
  claim7_reserved_rows.1 [] _ "Tool".toList "Version".toList (by decide)
    (by decide)

/-- C8: For every input file, the parsed mapping holds, for each tool, the
value of its last matching occurrence (last-write-wins: lookup returns the
first hit searching the matched rows from the end), while the key order of
the mapping is the order of first appearance of each tool. -/
theorem claim8_last_write_wins (lines : List (List Char)) :
    dictKeys (parseLines lines) =
      firstOccur ((matchedPairs lines).map Prod.fst) ∧
    ∀ k, dictLookup (parseLines lines) k =
      ((matchedPairs lines).reverse.find? (fun p => p.1 = k)).map Prod.snd := by
  constructor
  · rw [parseLines_eq, dictKeys_dictInsertAll]
    rfl
  · intro k
    rw [parseLines_eq, dictLookup_dictInsertAll]
    cases (matchedPairs lines).reverse.find? (fun p => p.1 = k) with
    | none => rfl
    | some p => rfl

/-- C9: Parsing never fails on any line: a line that does not match the
table-row shape leaves the mapping unchanged (the parse function is total and
raises nothing), and a row with unexpected extra columns is absorbed
silently — the extra columns are folded into the version string. -/
theorem claim9_lenient :
    (∀ (m : Dict) (line : List Char), reMatchRow line = none →
      parseLine m line = m) ∧
    parseLines ["| a | b | c |".toList] = [("a".toList, "b | c".toList)] := by
  constructor
  · intro m line h
    exact parseLine_nomatch m h
  · decide

theorem claim9_lenient_witness :
    parseLine [] "no table row".toList = [] :=
  claim9_lenient.1 [] _ (by decide)

/-- C3: For any two-column markdown table input (whose lines, being lines of
a file, contain no newline), parsing it and formatting the result with the
same single-architecture selection, then re-parsing the formatted output,
reproduces exactly the same tool-to-version mapping.  (This holds with no
exclusions: under a single-architecture selection every emitted cell comes
from the mapping, so excluding `Not found` sentinel rows — which signal
absence — removes nothing that was parsed.) -/
theorem claim3_roundtrip (now : List Char) (lines : List (List Char))
    (hnl : ∀ l ∈ lines, '\n' ∉ l) :
    parseLines (contentAmd now (parseLines lines) []) = parseLines lines ∧
    parseLines (contentArm now [] (parseLines lines)) = parseLines lines := by
  have hnd := nodup_dictKeys_parseLines lines
  have hprops : ∀ p ∈ parseLines lines,
      headOk p.1 = true ∧ lastOk p.1 = true ∧ '|' ∉ p.1 ∧ '\n' ∉ p.1 ∧
        headOk p.2 = true ∧ lastOk p.2 = true ∧ '\n' ∉ p.2 :=
    fun _ hp => parseLines_pair_props hnl hp
  have hskip : ∀ p ∈ parseLines lines, skipTool p.1 = false := fun p hp =>
    parseLines_key_not_skip (List.mem_map_of_mem Prod.fst hp)
  exact ⟨parseLines_contentAmd now _ hnd hprops hskip,
    parseLines_contentArm now _ hnd hprops hskip⟩

theorem claim3_roundtrip_witness :
    parseLines (contentAmd "2024".toList
        (parseLines ["| git | 2.40 |".toList]) []) =
      parseLines ["| git | 2.40 |".toList] :=
  (claim3_roundtrip "2024".toList ["| git | 2.40 |".toList] (by decide)).1

/-- C6: A supplied input path that does not exist is not fatal: parsing
returns an empty mapping together with a printed warning, and `main` still
succeeds, producing a report computed from an empty mapping for that
architecture. -/
theorem claim6_missing_input (fs : FileSys) (p q now : List Char)
    (hfs : fs p = none) (hp : p ≠ []) (hq : q ≠ []) :
    parse_markdown_table fs p =
      ([], ["Warning: ".toList ++ p ++ " not found.".toList]) ∧
    mainRun fs now ⟨some p, some q, none⟩ =
      { exitCode := 0
        stdoutLines := ("Warning: ".toList ++ p ++ " not found.".toList) ::
          ((parse_markdown_table fs q).2 ++
            [joinContent (contentBoth now [] (parse_markdown_table fs q).1)])
        stderrLines := []
        written := none } := by
  have hparse : parse_markdown_table fs p =
      ([], ["Warning: ".toList ++ p ++ " not found.".toList]) := by
    unfold parse_markdown_table
    rw [hfs]
  refine ⟨hparse, ?_⟩
  unfold mainRun
  rw [truthy_some_of_ne hp, truthy_some_of_ne hq]
  simp only [Bool.not_true, Bool.false_and, Bool.and_self, if_false,
    Bool.true_and, if_true]
  rw [show (some p).getD [] = p from rfl, show (some q).getD [] = q from rfl,
    hparse]
  rfl

theorem claim6_missing_input_witness :
    mainRun (fun _ => none) "T".toList ⟨some "a".toList, some "b".toList, none⟩
      = { exitCode := 0
          stdoutLines :=
            ("Warning: ".toList ++ "a".toList ++ " not found.".toList) ::
            ((parse_markdown_table (fun _ => none) "b".toList).2 ++
              [joinContent (contentBoth "T".toList []
                (parse_markdown_table (fun _ => none) "b".toList).1)])
          stderrLines := []
          written := none } :=
  (claim6_missing_input (fun _ => none) "a".toList "b".toList "T".toList rfl
    (by decide) (by decide)).2

/-- C10 counterexample: with only amd64 supplied, a data cell of the
formatted report *can* equal the sentinel string `Not found` — it suffices
that the input file records the literal version string `Not found`.  Here the
single data row of the amd64-only report is exactly `| foo | Not found |`,
whose version cell is the sentinel. -/
theorem claim10_counterexample :
    "foo".toList ∈ allTools (parseLines ["| foo | Not found |".toList]) [] ∧
    rowSingle (parseLines ["| foo | Not found |".toList]) "foo".toList =
      "| foo | Not found |".toList := by decide

/-- C10, amended: when exactly one architecture is supplied, every tool in
the union list has a version in the single supplied mapping, so every data
cell is that stored version — the `Not found` fallback is never taken (a cell
can still *equal* the sentinel if the stored version is literally the string
`Not found`).  With the supplied file missing or empty the union is empty and
no data rows are emitted at all. -/
theorem claim10_amended :
    (∀ (m : Dict) (t : List Char), t ∈ allTools m [] →
      ∃ v, dictLookup m t = some v ∧
        rowSingle m t =
          "| ".toList ++ t ++ " | ".toList ++ v ++ " |".toList) ∧
    allTools [] [] = [] := by
  constructor
  · intro m t ht
    have hk : t ∈ dictKeys m := mem_allTools_single ht
    obtain ⟨v, hv⟩ := Option.isSome_iff_exists.1 ((dictLookup_isSome m t).2 hk)
    refine ⟨v, hv, ?_⟩
    unfold rowSingle dictGet
    rw [hv]
    rfl
  · rfl

theorem claim10_amended_witness :
    ∃ v, dictLookup [("git".toList, "2.40".toList)] "git".toList = some v ∧
      rowSingle [("git".toList, "2.40".toList)] "git".toList =
        "| ".toList ++ "git".toList ++ " | ".toList ++ v ++ " |".toList :=
  claim10_amended.1 [("git".toList, "2.40".toList)] "git".toList (by decide)

/-- The exact text of the two-architecture report: title line, timestamp
line, blank line, header row (with the source's trailing space), separator
row, then one newline-terminated row per tool. -/
lemma joinContent_contentBoth (now : List Char) (m1 m2 : Dict) :
    joinContent (contentBoth now m1 m2) =
      "# Tool Versions\n".toList ++ "Generated on ".toList ++ now ++
        "\n\n| Tool | amd64 | arm64 | \n| :--- | :--- | :--- |\n".toList ++
        ((allTools m1 m2).map (fun t => rowBoth m1 m2 t ++ ['\n'])).flatten := by
  unfold contentBoth headerLines
  rw [show ["# Tool Versions".toList, "Generated on ".toList ++ now, []]
      ++ ["| Tool | amd64 | arm64 | ".toList, "| :--- | :--- | :--- |".toList]
      ++ (allTools m1 m2).map (rowBoth m1 m2) =
      "# Tool Versions".toList :: ("Generated on ".toList ++ now) :: [] ::
        "| Tool | amd64 | arm64 | ".toList ::
        "| :--- | :--- | :--- |".toList ::
        (allTools m1 m2).map (rowBoth m1 m2) by simp]
  rw [joinContent_cons_cons, joinContent_cons_cons, joinContent_cons_cons,
    joinContent_cons_cons, joinContent_rows]
  simp
  rfl

/-- C4 counterexample: the report the implementation formats is *not* the
spec's claimed exact text — at this concrete input the two differ, because
the implementation's header row is `| Tool | amd64 | arm64 | ` with a
trailing space (source line 73) while the claim demands exactly
`| Tool | amd64 | arm64 |`. -/
theorem claim4_counterexample :
    joinContent (contentBoth "2024-01-01 00:00:00".toList
        [("git".toList, "2.40".toList)] [("curl".toList, "8.0".toList)]) ≠
      joinContent (specContentBoth "2024-01-01 00:00:00".toList
        [("git".toList, "2.40".toList)] [("curl".toList, "8.0".toList)]) := by
  decide

/-- C4, amended: when both architecture paths are supplied (non-empty), the
standard-output report is exactly: the title line `# Tool Versions`, a
`Generated on <now>` line, a blank line, the header row
`| Tool | amd64 | arm64 | ` — with a trailing space before the newline —
the separator row `| :--- | :--- | :--- |`, then one row per tool in union
order, each line terminated by a newline, the whole content ending with a
single trailing newline. -/
theorem claim4_amended (fs : FileSys) (now p1 p2 : List Char)
    (out : Option (List Char)) (h1 : p1 ≠ []) (h2 : p2 ≠ []) :
    (mainRun fs now ⟨some p1, some p2, out⟩).stdoutLines =
      (parse_markdown_table fs p1).2 ++ (parse_markdown_table fs p2).2 ++
      ["# Tool Versions\n".toList ++ "Generated on ".toList ++ now ++
        "\n\n| Tool | amd64 | arm64 | \n| :--- | :--- | :--- |\n".toList ++
        ((allTools (parse_markdown_table fs p1).1
            (parse_markdown_table fs p2).1).map
          (fun t => rowBoth (parse_markdown_table fs p1).1
            (parse_markdown_table fs p2).1 t ++ ['\n'])).flatten] := by
  unfold mainRun
  rw [truthy_some_of_ne h1, truthy_some_of_ne h2]
  simp only [Bool.not_true, Bool.false_and, Bool.and_self, if_false,
    Bool.true_and, if_true]
  rw [show (some p1).getD [] = p1 from rfl, show (some p2).getD [] = p2 from rfl]
  rw [joinContent_contentBoth]
  simp

theorem claim4_amended_witness :
    (mainRun (fun _ => none) "T".toList
        ⟨some "a".toList, some "b".toList, none⟩).stdoutLines =
      (parse_markdown_table (fun _ => none) "a".toList).2 ++
      (parse_markdown_table (fun _ => none) "b".toList).2 ++
      ["# Tool Versions\n".toList ++ "Generated on ".toList ++ "T".toList ++
        "\n\n| Tool | amd64 | arm64 | \n| :--- | :--- | :--- |\n".toList ++
        ((allTools (parse_markdown_table (fun _ => none) "a".toList).1
            (parse_markdown_table (fun _ => none) "b".toList).1).map
          (fun t => rowBoth (parse_markdown_table (fun _ => none) "a".toList).1
            (parse_markdown_table (fun _ => none) "b".toList).1 t
              ++ ['\n'])).flatten] :=
  claim4_amended (fun _ => none) "T".toList "a".toList "b".toList none
    (by decide) (by decide)

end MergeToolVersions
